import Mathlib

/-!
Verification of the slide-redact redaction engine.

This file gives a shallow embedding of the engine's core:
  * the region store with its undo/redo history (`useRegions` in
    `src/hooks/useRegions.ts`, given here as `addRegionStep`,
    `removeRegionStep`, `clearRegionsStep`, `undoStep`, `redoStep`),
  * the destructive raster effects (`applyPixelation`, `applySolidMask`,
    `processImage` in `src/core/image-processor.ts`),
  * the zoom state transitions (`zoomAt`, `zoomIn`, `zoomOut`, `zoomReset`
    in `src/hooks/useCanvasRenderer.ts`).

Modelling conventions:
  * JavaScript numbers that can carry NaN or infinities (the geometry fields
    that flow unchecked into the store) are modelled by `JsNum`, whose
    comparison, addition and absolute value mirror IEEE semantics on those
    special values; finite values are exact rationals.
  * Arithmetic that only ever sees finite values (zoom levels, the effect
    engine after `Math.round`) is modelled over `ℚ` / `ℤ` / `ℕ` directly.
  * React `setState` updater functions are applied synchronously, so each
    store operation is a plain state-transition function.
  * In-place mutation of an `ImageData` byte array becomes explicit
    function-passing: a pixel buffer is a function from flat byte index to
    value, and a write loop becomes a pointwise redefinition on exactly the
    indices the loop writes.
-/

/-- A JavaScript `number` as far as the region store observes it: NaN, the two
infinities, or an exact finite value.  (Doubles are modelled as exact
rationals; none of the verified paths round.) -/
inductive JsNum where
  | nan : JsNum
  | posInf : JsNum
  | negInf : JsNum
  | fin (q : ℚ) : JsNum
deriving DecidableEq

namespace JsNum

/-- JavaScript `<` : any comparison involving NaN is false. -/
def lt : JsNum → JsNum → Bool
  | nan, _ => false
  | _, nan => false
  | posInf, _ => false
  | negInf, negInf => false
  | negInf, _ => true
  | fin _, posInf => true
  | fin _, negInf => false
  | fin q, fin r => decide (q < r)

/-- JavaScript `+` on numbers: NaN propagates, opposite infinities give NaN. -/
def add : JsNum → JsNum → JsNum
  | nan, _ => nan
  | _, nan => nan
  | posInf, negInf => nan
  | negInf, posInf => nan
  | posInf, _ => posInf
  | _, posInf => posInf
  | negInf, _ => negInf
  | _, negInf => negInf
  | fin q, fin r => fin (q + r)

/-- JavaScript `Math.abs`. -/
def abs : JsNum → JsNum
  | nan => nan
  | posInf => posInf
  | negInf => posInf
  | fin q => fin |q|

/-- JavaScript `Number.isFinite`. -/
def isFinite : JsNum → Bool
  | fin _ => true
  | _ => false

/-- Read a finite JavaScript number as a rational (0 for the non-finite
values, which the verified engine paths never receive). -/
def toQ : JsNum → ℚ
  | fin q => q
  | _ => 0

end JsNum

/-- Type `BlurMode` from `src/types/editor.ts`. -/
inductive BlurMode where
  | pixelate : BlurMode
  | solid : BlurMode
deriving DecidableEq

/-- An opaque RGB fill color (the engine paints it with alpha 255, as canvas
`fillRect` does for an opaque `fillStyle`). -/
structure Color where
  r : ℕ
  g : ℕ
  b : ℕ
deriving DecidableEq

/-- Type `BlurRegion` from `src/types/editor.ts`.  `generateId` is modelled by a
per-store counter, so `id : ℕ`. -/
structure BlurRegion where
  id : ℕ
  x : JsNum
  y : JsNum
  width : JsNum
  height : JsNum
  mode : BlurMode
  blockSize : ℤ
  fillColor : Color
deriving DecidableEq

/-- The state owned by `useRegions`: the `regions` array plus the two
snapshot stacks (head of the list = top of the stack), and the id counter
standing in for `generateId`. -/
structure RegionState where
  regions : List BlurRegion
  undoStack : List (List BlurRegion)
  redoStack : List (List BlurRegion)
  nextId : ℕ
deriving DecidableEq

/-- The store before any operation. -/
def emptyRegionState : RegionState := ⟨[], [], [], 0⟩

/-- Function `addRegion` from `useRegions`: flips a negative width/height across the
anchor, takes absolute sizes, rejects if the normalized width or height is
below 2, otherwise pushes the pre-mutation snapshot (`pushUndo`, which also
clears the redo stack) and appends the new region. -/
def addRegionStep (s : RegionState) (x y width height : JsNum) (mode : BlurMode)
    (blockSize : ℤ) (fillColor : Color) : RegionState :=
  let nx := if width.lt (.fin 0) then x.add width else x
  let ny := if height.lt (.fin 0) then y.add height else y
  let nw := width.abs
  let nh := height.abs
  if nw.lt (.fin 2) || nh.lt (.fin 2) then s
  else
    { regions := s.regions ++
        [{ id := s.nextId, x := nx, y := ny, width := nw, height := nh,
           mode := mode, blockSize := blockSize, fillColor := fillColor }]
      undoStack := s.regions :: s.undoStack
      redoStack := []
      nextId := s.nextId + 1 }

/-- Function `removeRegion`: always snapshots, then filters the id out. -/
def removeRegionStep (s : RegionState) (id : ℕ) : RegionState :=
  { regions := s.regions.filter (fun r => r.id != id)
    undoStack := s.regions :: s.undoStack
    redoStack := []
    nextId := s.nextId }

/-- Function `clearRegions`: empties the collection and resets both history stacks
(the trailing `undoStack.current = []; redoStack.current = []` assignments
discard whatever the snapshot push left there). -/
def clearRegionsStep (s : RegionState) : RegionState :=
  { regions := [], undoStack := [], redoStack := [], nextId := s.nextId }

/-- Function `undo`: pop the undo stack; if non-empty, push the current collection on
the redo stack and install the popped snapshot. -/
def undoStep (s : RegionState) : RegionState :=
  match s.undoStack with
  | [] => s
  | p :: rest =>
    { regions := p, undoStack := rest, redoStack := s.regions :: s.redoStack,
      nextId := s.nextId }

/-- Function `redo`: mirror of `undo`. -/
def redoStep (s : RegionState) : RegionState :=
  match s.redoStack with
  | [] => s
  | n :: rest =>
    { regions := n, undoStack := s.regions :: s.undoStack, redoStack := rest,
      nextId := s.nextId }

/-- Derived flag `canUndo` (`undoStack.current.length > 0`). -/
def canUndo (s : RegionState) : Bool := decide (0 < s.undoStack.length)

/-- Derived flag `canRedo` (`redoStack.current.length > 0`). -/
def canRedo (s : RegionState) : Bool := decide (0 < s.redoStack.length)

/-- One store-mutating user action (the three collection-mutating operations
of the store; undo/redo are separate). -/
inductive EditOp where
  | add (x y width height : JsNum) (mode : BlurMode) (blockSize : ℤ)
      (fillColor : Color) : EditOp
  | remove (id : ℕ) : EditOp
  | clear : EditOp

/-- Apply one collection-mutating operation. -/
def editStep (s : RegionState) : EditOp → RegionState
  | .add x y w h m bs c => addRegionStep s x y w h m bs c
  | .remove id => removeRegionStep s id
  | .clear => clearRegionsStep s

/-- Run a sequence of collection-mutating operations from the empty store. -/
def runOps (ops : List EditOp) : RegionState :=
  ops.foldl editStep emptyRegionState

/-- Press undo until `canUndo` is false: each `undoStep` shrinks the undo
stack by exactly one entry, so iterating it `undoStack.length` times is the
exhaustive undo loop. -/
def undoAll (s : RegionState) : RegionState :=
  undoStep^[s.undoStack.length] s

/-- Press redo until `canRedo` is false. -/
def redoAll (s : RegionState) : RegionState :=
  redoStep^[s.redoStack.length] s

/-! ### History-log lemmas -/

/-- Undoing through an undo stack `u`: the collection ends at the bottom
snapshot (or stays put if the stack is empty), the undo stack empties, and
the redo stack receives everything above the bottom, topped by the starting
collection. -/
theorem undoStep_iterate (u : List (List BlurRegion)) (r : List BlurRegion)
    (d : List (List BlurRegion)) (k : ℕ) :
    undoStep^[u.length] ⟨r, u, d, k⟩ =
      ⟨u.getLastD r, [], ((r :: u).dropLast).reverse ++ d, k⟩ := by
  induction u generalizing r d with
  | nil => simp [undoStep]
  | cons p rest ih =>
    have hstep : undoStep ⟨r, p :: rest, d, k⟩ = ⟨p, rest, r :: d, k⟩ := rfl
    calc undoStep^[(p :: rest).length] ⟨r, p :: rest, d, k⟩
        = undoStep^[rest.length] (undoStep ⟨r, p :: rest, d, k⟩) := by
          rw [List.length_cons, Function.iterate_succ_apply]
      _ = ⟨rest.getLastD p, [], ((p :: rest).dropLast).reverse ++ (r :: d), k⟩ := by
          rw [hstep, ih]
      _ = ⟨(p :: rest).getLastD r, [], ((r :: p :: rest).dropLast).reverse ++ d, k⟩ := by
          rw [List.getLastD_cons]
          simp

/-- Redoing through a redo stack `d` is the mirror image. -/
theorem redoStep_iterate (d : List (List BlurRegion)) (r : List BlurRegion)
    (u : List (List BlurRegion)) (k : ℕ) :
    redoStep^[d.length] ⟨r, u, d, k⟩ =
      ⟨d.getLastD r, ((r :: d).dropLast).reverse ++ u, [], k⟩ := by
  induction d generalizing r u with
  | nil => simp [redoStep]
  | cons n rest ih =>
    have hstep : redoStep ⟨r, u, n :: rest, k⟩ = ⟨n, r :: u, rest, k⟩ := rfl
    calc redoStep^[(n :: rest).length] ⟨r, u, n :: rest, k⟩
        = redoStep^[rest.length] (redoStep ⟨r, u, n :: rest, k⟩) := by
          rw [List.length_cons, Function.iterate_succ_apply]
      _ = ⟨rest.getLastD n, ((n :: rest).dropLast).reverse ++ (r :: u), [], k⟩ := by
          rw [hstep, ih]
      _ = ⟨(n :: rest).getLastD r, ((r :: n :: rest).dropLast).reverse ++ u, [], k⟩ := by
          rw [List.getLastD_cons]
          simp

/-- Invariant of any run of collection-mutating operations from the empty
store: the redo stack is empty, and the bottom of the undo stack (or, if the
undo stack is empty, the current collection itself) is the empty
collection. -/
theorem runOps_invariant (ops : List EditOp) :
    (runOps ops).redoStack = [] ∧
      (runOps ops).undoStack.getLastD (runOps ops).regions = [] := by
  suffices h : ∀ (s : RegionState), s.redoStack = [] →
      s.undoStack.getLastD s.regions = [] →
      (ops.foldl editStep s).redoStack = [] ∧
        (ops.foldl editStep s).undoStack.getLastD (ops.foldl editStep s).regions = [] by
    exact h emptyRegionState rfl rfl
  induction ops with
  | nil => intro s h1 h2; exact ⟨h1, h2⟩
  | cons op rest ih =>
    intro s h1 h2
    refine ih (editStep s op) ?_ ?_
    · cases op with
      | add x y w h m bs c =>
        simp only [editStep, addRegionStep]
        split
        · exact h1
        · rfl
      | remove id => rfl
      | clear => rfl
    · cases op with
      | add x y w h m bs c =>
        simp only [editStep, addRegionStep]
        split
        · exact h2
        · rw [List.getLastD_cons]; exact h2
      | remove id =>
        show (s.regions :: s.undoStack).getLastD _ = []
        rw [List.getLastD_cons]; exact h2
      | clear => rfl

/-! ### Claims about the region store -/

/-- Claim C4: for every finite sequence of addRegion/removeRegion/clearRegions
operations from the empty store, undoing until `canUndo` is false yields the
empty collection, and then redoing until `canRedo` is false restores exactly
the collection that existed after the sequence (list equality, order
included). -/
theorem undo_exhausts_then_redo_replays (ops : List EditOp) :
    canUndo (undoAll (runOps ops)) = false ∧
      (undoAll (runOps ops)).regions = [] ∧
      canRedo (redoAll (undoAll (runOps ops))) = false ∧
      (redoAll (undoAll (runOps ops))).regions = (runOps ops).regions := by
  obtain ⟨hredo, hlast⟩ := runOps_invariant ops
  rcases hS : runOps ops with ⟨r, u, d, k⟩
  rw [hS] at hredo hlast
  have hd : d = [] := hredo
  have hl : u.getLastD r = [] := hlast
  subst hd
  have hu : undoAll (⟨r, u, [], k⟩ : RegionState) =
      ⟨[], [], ((r :: u).dropLast).reverse, k⟩ := by
    rw [undoAll]
    show undoStep^[u.length] ⟨r, u, [], k⟩ = _
    rw [undoStep_iterate, hl, List.append_nil]
  have hrd : redoAll (⟨[], [], ((r :: u).dropLast).reverse, k⟩ : RegionState) =
      ⟨((r :: u).dropLast).reverse.getLastD [],
        (([] : List BlurRegion) :: ((r :: u).dropLast).reverse).dropLast.reverse ++ [],
        [], k⟩ := by
    rw [redoAll]
    exact redoStep_iterate _ _ _ _
  have hback : ((r :: u).dropLast).reverse.getLastD ([] : List BlurRegion) = r := by
    cases u with
    | nil =>
      rw [List.getLastD_nil] at hl
      subst hl
      simp
    | cons q u2 =>
      rw [List.dropLast_cons₂, List.reverse_cons, List.getLastD_concat]
  refine ⟨?_, ?_, ?_, ?_⟩
  · rw [hu]; rfl
  · rw [hu]
  · rw [hu, hrd]; rfl
  · rw [hu, hrd]; exact hback

/-- Claim C3: add A, add B, `clearAll()` starting from the empty store leaves
the collection empty with `canUndo` and `canRedo` both false — the whole
history log is discarded, not just the latest step. -/
theorem clearAll_after_two_adds_is_hard_reset
    (xa ya wa ha : JsNum) (ma : BlurMode) (ba : ℤ) (ca : Color)
    (xb yb wb hb : JsNum) (mb : BlurMode) (bb : ℤ) (cb : Color) :
    (clearRegionsStep (addRegionStep
        (addRegionStep emptyRegionState xa ya wa ha ma ba ca)
        xb yb wb hb mb bb cb)).regions = [] ∧
      canUndo (clearRegionsStep (addRegionStep
        (addRegionStep emptyRegionState xa ya wa ha ma ba ca)
        xb yb wb hb mb bb cb)) = false ∧
      canRedo (clearRegionsStep (addRegionStep
        (addRegionStep emptyRegionState xa ya wa ha ma ba ca)
        xb yb wb hb mb bb cb)) = false :=
  ⟨rfl, rfl, rfl⟩

/-- Claim C8: an `addRegion` call whose normalized width or height is below
2 px is a pure no-op: the state is unchanged, so the collection length and
`canUndo` keep their prior values and no snapshot is pushed. -/
theorem addRegion_small_is_noop (s : RegionState) (x y w h : JsNum)
    (m : BlurMode) (bs : ℤ) (c : Color)
    (hsmall : (w.abs.lt (.fin 2) || h.abs.lt (.fin 2)) = true) :
    addRegionStep s x y w h m bs c = s ∧
      (addRegionStep s x y w h m bs c).regions.length = s.regions.length ∧
      canUndo (addRegionStep s x y w h m bs c) = canUndo s := by
  have he : addRegionStep s x y w h m bs c = s := by
    simp [addRegionStep, hsmall]
  exact ⟨he, by rw [he], by rw [he]⟩

/-- Witness for C8 at the claim's example `w = 1, h = 1`. -/
theorem addRegion_small_is_noop_check :
    (((JsNum.fin 1).abs.lt (.fin 2) || (JsNum.fin 1).abs.lt (.fin 2)) = true) ∧
      (addRegionStep emptyRegionState (.fin 0) (.fin 0) (.fin 1) (.fin 1)
          .pixelate 10 ⟨0, 0, 0⟩ = emptyRegionState ∧
        (addRegionStep emptyRegionState (.fin 0) (.fin 0) (.fin 1) (.fin 1)
            .pixelate 10 ⟨0, 0, 0⟩).regions.length = emptyRegionState.regions.length ∧
        canUndo (addRegionStep emptyRegionState (.fin 0) (.fin 0) (.fin 1) (.fin 1)
            .pixelate 10 ⟨0, 0, 0⟩) = canUndo emptyRegionState) :=
  ⟨by decide,
    addRegion_small_is_noop emptyRegionState (.fin 0) (.fin 0) (.fin 1) (.fin 1)
      .pixelate 10 ⟨0, 0, 0⟩ (by decide)⟩

/-- Claim C7: for finite inputs with `|w| ≥ 2` and `|h| ≥ 2`, `addRegion`
stores a region with non-negative width/height whose bounding box
`{min(x, x+w), min(y, y+h), |w|, |h|}` is the geometric bounding box of the
two corner points `(x, y)` and `(x+w, y+h)`, whatever the signs of `w`, `h`. -/
theorem addRegion_normalizes_to_bounding_box (s : RegionState) (qx qy qw qh : ℚ)
    (m : BlurMode) (bs : ℤ) (c : Color) (hw : 2 ≤ |qw|) (hh : 2 ≤ |qh|) :
    ∃ reg : BlurRegion,
      (addRegionStep s (.fin qx) (.fin qy) (.fin qw) (.fin qh) m bs c).regions
          = s.regions ++ [reg] ∧
        reg.x = .fin (min qx (qx + qw)) ∧
        reg.y = .fin (min qy (qy + qh)) ∧
        reg.width = .fin |qw| ∧
        reg.height = .fin |qh| ∧
        |qw| = max qx (qx + qw) - min qx (qx + qw) ∧
        |qh| = max qy (qy + qh) - min qy (qy + qh) ∧
        0 ≤ |qw| ∧ 0 ≤ |qh| := by
  have hcheck : ((JsNum.fin |qw|).lt (.fin 2) || (JsNum.fin |qh|).lt (.fin 2))
      = false := by
    simp only [JsNum.lt, Bool.or_eq_false_iff, decide_eq_false_iff_not, not_lt]
    exact ⟨hw, hh⟩
  have hx : (if (JsNum.fin qw).lt (.fin 0) then (JsNum.fin qx).add (.fin qw)
      else JsNum.fin qx) = .fin (min qx (qx + qw)) := by
    by_cases hq : qw < 0
    · simp [JsNum.lt, JsNum.add, hq, min_eq_right (by linarith : qx + qw ≤ qx)]
    · simp [JsNum.lt, JsNum.add, hq, min_eq_left (by linarith [not_lt.mp hq] : qx ≤ qx + qw)]
  have hy : (if (JsNum.fin qh).lt (.fin 0) then (JsNum.fin qy).add (.fin qh)
      else JsNum.fin qy) = .fin (min qy (qy + qh)) := by
    by_cases hq : qh < 0
    · simp [JsNum.lt, JsNum.add, hq, min_eq_right (by linarith : qy + qh ≤ qy)]
    · simp [JsNum.lt, JsNum.add, hq, min_eq_left (by linarith [not_lt.mp hq] : qy ≤ qy + qh)]
  have hbw : |qw| = max qx (qx + qw) - min qx (qx + qw) := by
    rcases le_or_lt 0 qw with hq | hq
    · rw [max_eq_right (by linarith : qx ≤ qx + qw),
        min_eq_left (by linarith : qx ≤ qx + qw), abs_of_nonneg hq]
      ring
    · rw [max_eq_left (by linarith : qx + qw ≤ qx),
        min_eq_right (by linarith : qx + qw ≤ qx), abs_of_neg hq]
      ring
  have hbh : |qh| = max qy (qy + qh) - min qy (qy + qh) := by
    rcases le_or_lt 0 qh with hq | hq
    · rw [max_eq_right (by linarith : qy ≤ qy + qh),
        min_eq_left (by linarith : qy ≤ qy + qh), abs_of_nonneg hq]
      ring
    · rw [max_eq_left (by linarith : qy + qh ≤ qy),
        min_eq_right (by linarith : qy + qh ≤ qy), abs_of_neg hq]
      ring
  refine ⟨⟨s.nextId, .fin (min qx (qx + qw)), .fin (min qy (qy + qh)),
      .fin |qw|, .fin |qh|, m, bs, c⟩, ?_, rfl, rfl, rfl, rfl, hbw, hbh,
      abs_nonneg qw, abs_nonneg qh⟩
  simp only [addRegionStep, JsNum.abs, hcheck, Bool.false_eq_true, if_false, hx, hy]

/-- Witness for C7 at `x = 0, y = 0, w = -3, h = 4`. -/
theorem addRegion_normalizes_to_bounding_box_check :
    2 ≤ |(-3 : ℚ)| ∧ 2 ≤ |(4 : ℚ)| ∧
      ∃ reg : BlurRegion,
        (addRegionStep emptyRegionState (.fin 0) (.fin 0) (.fin (-3)) (.fin 4)
            .pixelate 10 ⟨0, 0, 0⟩).regions = emptyRegionState.regions ++ [reg] ∧
          reg.x = .fin (min 0 (0 + (-3))) ∧
          reg.y = .fin (min 0 (0 + 4)) ∧
          reg.width = .fin |(-3 : ℚ)| ∧
          reg.height = .fin |(4 : ℚ)| ∧
          |(-3 : ℚ)| = max 0 (0 + (-3)) - min 0 (0 + (-3)) ∧
          |(4 : ℚ)| = max 0 (0 + 4) - min 0 (0 + 4) ∧
          0 ≤ |(-3 : ℚ)| ∧ 0 ≤ |(4 : ℚ)| :=
  ⟨by norm_num, by norm_num,
    addRegion_normalizes_to_bounding_box emptyRegionState 0 0 (-3) 4 .pixelate 10
      ⟨0, 0, 0⟩ (by norm_num) (by norm_num)⟩

/-- A JavaScript number is finite exactly when it carries a rational value. -/
theorem JsNum.isFinite_iff (x : JsNum) : x.isFinite = true ↔ ∃ q, x = fin q := by
  cases x <;> simp [isFinite]

/-- Counterexample to C2 as stated: `addRegion(+∞, 0, 5, 5, …)` is not
rejected — it appends a region whose `x` field is non-finite. -/
theorem addRegion_accepts_nonfinite_geometry :
    (addRegionStep emptyRegionState .posInf (.fin 0) (.fin 5) (.fin 5)
        .pixelate 10 ⟨0, 0, 0⟩).regions
      = [⟨0, .posInf, .fin 0, .fin 5, .fin 5, .pixelate, 10, ⟨0, 0, 0⟩⟩] ∧
      JsNum.isFinite .posInf = false := by
  exact ⟨rfl, rfl⟩

/-- Amended C2: `addRegion` tests only the normalized minimum size, never
finiteness (NaN even passes the size test, since `NaN < 2` is false), so
non-finite geometry can be stored; but whenever all four inputs are finite,
any region the call appends has finite fields with width ≥ 2 and height ≥ 2,
hence `width * height > 0`. -/
theorem addRegion_finite_inputs_store_positive_area (s : RegionState)
    (x y w h : JsNum) (m : BlurMode) (bs : ℤ) (c : Color)
    (hx : x.isFinite = true) (hy : y.isFinite = true)
    (hw : w.isFinite = true) (hh : h.isFinite = true) :
    ∀ r ∈ (addRegionStep s x y w h m bs c).regions,
      r ∈ s.regions ∨
        (r.x.isFinite = true ∧ r.y.isFinite = true ∧
          ∃ qw qh : ℚ, r.width = .fin qw ∧ r.height = .fin qh ∧
            2 ≤ qw ∧ 2 ≤ qh ∧ 0 < qw * qh) := by
  obtain ⟨qx, rfl⟩ := (JsNum.isFinite_iff x).mp hx
  obtain ⟨qy, rfl⟩ := (JsNum.isFinite_iff y).mp hy
  obtain ⟨qw, rfl⟩ := (JsNum.isFinite_iff w).mp hw
  obtain ⟨qh, rfl⟩ := (JsNum.isFinite_iff h).mp hh
  intro r hr
  by_cases hc : ((JsNum.fin qw).abs.lt (.fin 2) || (JsNum.fin qh).abs.lt (.fin 2)) = true
  · left
    simpa [addRegionStep, hc] using hr
  · have hc2 : ((JsNum.fin qw).abs.lt (.fin 2) || (JsNum.fin qh).abs.lt (.fin 2))
        = false := by
      exact Bool.not_eq_true _ ▸ (Bool.eq_false_iff.mpr hc)
    have h2w : 2 ≤ |qw| := by
      have := Bool.or_eq_false_iff.mp hc2
      have := this.1
      simpa [JsNum.abs, JsNum.lt, not_lt] using this
    have h2h : 2 ≤ |qh| := by
      have := Bool.or_eq_false_iff.mp hc2
      have := this.2
      simpa [JsNum.abs, JsNum.lt, not_lt] using this
    simp only [addRegionStep, hc2, Bool.false_eq_true, if_false, List.mem_append,
      List.mem_singleton] at hr
    rcases hr with hr | hr
    · exact Or.inl hr
    · right
      subst hr
      refine ⟨?_, ?_, |qw|, |qh|, rfl, rfl, h2w, h2h, ?_⟩
      · by_cases hq : (JsNum.fin qw).lt (.fin 0) = true <;>
          simp [hq, JsNum.add, JsNum.isFinite]
      · by_cases hq : (JsNum.fin qh).lt (.fin 0) = true <;>
          simp [hq, JsNum.add, JsNum.isFinite]
      · have : (0 : ℚ) < |qw| := by linarith
        have h0 : (0 : ℚ) < |qh| := by linarith
        positivity

/-- Witness for the amended C2 with finite inputs `(0, 0, 3, 3)`. -/
theorem addRegion_finite_inputs_store_positive_area_check :
    (JsNum.fin 3).isFinite = true ∧
      ((⟨0, .fin 0, .fin 0, .fin 3, .fin 3, .pixelate, 10, ⟨0, 0, 0⟩⟩ : BlurRegion) ∈
          (addRegionStep emptyRegionState (.fin 0) (.fin 0) (.fin 3) (.fin 3)
              .pixelate 10 ⟨0, 0, 0⟩).regions) ∧
      ((⟨0, .fin 0, .fin 0, .fin 3, .fin 3, .pixelate, 10, ⟨0, 0, 0⟩⟩ : BlurRegion) ∈
          emptyRegionState.regions ∨
        ((JsNum.fin 0).isFinite = true ∧ (JsNum.fin 0).isFinite = true ∧
          ∃ qw qh : ℚ, (JsNum.fin 3) = .fin qw ∧ (JsNum.fin 3) = .fin qh ∧
            2 ≤ qw ∧ 2 ≤ qh ∧ 0 < qw * qh)) :=
  ⟨rfl, by decide,
    addRegion_finite_inputs_store_positive_area emptyRegionState
      (.fin 0) (.fin 0) (.fin 3) (.fin 3) .pixelate 10 ⟨0, 0, 0⟩
      rfl rfl rfl rfl _ (by decide)⟩

/-! ### Zoom state (useCanvasRenderer) -/

/-- One zoom-changing call from `useCanvasRenderer`. -/
inductive ZoomOp where
  | zoomAtOp (newZoom : ℚ) : ZoomOp
  | zoomInOp : ZoomOp
  | zoomOutOp : ZoomOp
  | zoomResetOp : ZoomOp

/-- The zoom updates: `zoomAt` sets `Math.min(5, Math.max(0.5, newZoom))`,
`zoomIn` sets `Math.min(z + 0.5, 5)`, `zoomOut` sets `Math.max(z - 0.5, 0.5)`,
`zoomReset` sets 1.  (Zoom arithmetic only ever sees finite doubles, modelled
exactly over `ℚ`.) -/
def zoomStep (z : ℚ) : ZoomOp → ℚ
  | .zoomAtOp newZoom => min 5 (max (1/2) newZoom)
  | .zoomInOp => min (z + 1/2) 5
  | .zoomOutOp => max (z - 1/2) (1/2)
  | .zoomResetOp => 1

/-- Initial value `useState(1)`: the default zoom. -/
def initialZoom : ℚ := 1

/-- Claim C9: starting from the default zoom of 1, any sequence of
`zoomAt`/`zoomIn`/`zoomOut`/`zoomReset` calls leaves the zoom in
`[0.5, 5.0]`. -/
theorem zoom_stays_clamped (ops : List ZoomOp) :
    1/2 ≤ ops.foldl zoomStep initialZoom ∧ ops.foldl zoomStep initialZoom ≤ 5 := by
  suffices h : ∀ (z : ℚ), 1/2 ≤ z → z ≤ 5 →
      1/2 ≤ ops.foldl zoomStep z ∧ ops.foldl zoomStep z ≤ 5 by
    exact h initialZoom (by norm_num [initialZoom]) (by norm_num [initialZoom])
  induction ops with
  | nil => intro z h1 h2; exact ⟨h1, h2⟩
  | cons op rest ih =>
    intro z h1 h2
    refine ih (zoomStep z op) ?_ ?_ <;> cases op <;> simp only [zoomStep]
    · exact le_min (by norm_num) (le_max_left _ _)
    · exact le_min (by linarith) (by norm_num)
    · exact le_max_right _ _
    · norm_num
    · exact min_le_left _ _
    · exact min_le_right _ _
    · exact max_le (by linarith) (by norm_num)
    · norm_num

/-! ### Termination of the pixelation block loops -/

/-- The loop counter of `applyPixelation`'s block loops: both
`for (let blockY = 0; blockY < ch; blockY += blockSize)` and the inner
`blockX` loop start at 0 and advance by `blockSize`; after `n` iterations the
counter is `n * blockSize`. -/
def pixelLoopCounter (blockSize : ℤ) (n : ℕ) : ℤ := n * blockSize

/-- The block loop terminates exactly when the guard `counter < limit`
eventually fails. -/
def pixelLoopTerminates (limit blockSize : ℤ) : Prop :=
  ∃ n : ℕ, limit ≤ pixelLoopCounter blockSize n

/-- Claim C10: the block loops of `applyPixelation` terminate whenever
`blockSize ≥ 1`, never terminate for `blockSize ≤ 0` against a non-empty
clipped extent, and the store does nothing to prevent that: `addRegion`
passes any caller-supplied `blockSize` — the documented `[4, 50]` range
included or not — straight into the stored region. -/
theorem pixelation_terminates_iff_positive_blockSize :
    (∀ limit blockSize : ℤ, 1 ≤ blockSize → pixelLoopTerminates limit blockSize) ∧
      (∀ limit blockSize : ℤ, blockSize ≤ 0 → 0 < limit →
        ¬ pixelLoopTerminates limit blockSize) ∧
      (∀ (s : RegionState) (qx qy : ℚ) (m : BlurMode) (bs : ℤ) (c : Color),
        ∃ reg : BlurRegion,
          (addRegionStep s (.fin qx) (.fin qy) (.fin 5) (.fin 5) m bs c).regions
              = s.regions ++ [reg] ∧ reg.blockSize = bs) := by
  refine ⟨?_, ?_, ?_⟩
  · intro limit blockSize hbs
    refine ⟨limit.toNat, ?_⟩
    unfold pixelLoopCounter
    calc limit ≤ (limit.toNat : ℤ) := Int.self_le_toNat limit
      _ = (limit.toNat : ℤ) * 1 := by ring
      _ ≤ (limit.toNat : ℤ) * blockSize := by
          exact mul_le_mul_of_nonneg_left hbs (by positivity)
  · rintro limit blockSize hbs hlim ⟨n, hn⟩
    have hmul : (n : ℤ) * blockSize ≤ 0 :=
      mul_nonpos_iff.mpr (Or.inl ⟨by positivity, hbs⟩)
    unfold pixelLoopCounter at hn
    linarith
  · intro s qx qy m bs c
    refine ⟨⟨s.nextId, .fin qx, .fin qy, .fin 5, .fin 5, m, bs, c⟩, ?_, rfl⟩
    norm_num [addRegionStep, JsNum.abs, JsNum.lt]

/-- Witness for C10: concrete instances of all three parts (`blockSize = 1`
terminates, `blockSize = 0` loops forever on a 3-pixel extent, and
`blockSize = -7` is stored verbatim). -/
theorem pixelation_terminates_iff_positive_blockSize_check :
    pixelLoopTerminates 3 1 ∧ ¬ pixelLoopTerminates 3 0 ∧
      ∃ reg : BlurRegion,
        (addRegionStep emptyRegionState (.fin 0) (.fin 0) (.fin 5) (.fin 5)
            .pixelate (-7) ⟨0, 0, 0⟩).regions
            = emptyRegionState.regions ++ [reg] ∧ reg.blockSize = -7 :=
  ⟨pixelation_terminates_iff_positive_blockSize.1 3 1 (by norm_num),
    pixelation_terminates_iff_positive_blockSize.2.1 3 0 (by norm_num) (by norm_num),
    pixelation_terminates_iff_positive_blockSize.2.2 emptyRegionState 0 0
      .pixelate (-7) ⟨0, 0, 0⟩⟩

/-! ### The destructive raster effects engine (`src/core/image-processor.ts`) -/

/-- Flat byte index of channel `c` of pixel `(px, py)` in a buffer whose rows
are `cw` pixels wide: `(py * cw + px) * 4 + c`, the index arithmetic of
`applyPixelation` (`i = (py * cw + px) * 4`, channels at `i .. i+3`). -/
def chanIdx (cw px py c : ℕ) : ℕ := (py * cw + px) * 4 + c

/-- Function `Math.round` on a finite double: round half toward positive infinity. -/
def jsRound (q : ℚ) : ℤ := ⌊q + 1/2⌋

/-- Value of `Math.round(s / n)` for naturals `s`, `n ≥ 1`: half-up rounding of the
exact quotient (double division is exact enough here that the float and the
exact rational round identically). -/
def jsRoundNatDiv (s n : ℕ) : ℕ := (2 * s + n) / (2 * n)

/-- Whether byte index `i` decodes to a pixel of the block with origin `b`
(blocks clip to the `cw × ch` extent: the code's
`bw = Math.min(blockSize, cw - blockX)`, `bh = Math.min(blockSize, ch - blockY)`). -/
def inBlock (cw ch bs : ℕ) (b : ℕ × ℕ) (i : ℕ) : Prop :=
  b.1 ≤ i / 4 % cw ∧ i / 4 % cw < b.1 + min bs (cw - b.1) ∧
    b.2 ≤ i / 4 / cw ∧ i / 4 / cw < b.2 + min bs (ch - b.2)

instance (cw ch bs : ℕ) (b : ℕ × ℕ) (i : ℕ) : Decidable (inBlock cw ch bs b i) :=
  inferInstanceAs (Decidable (b.1 ≤ i / 4 % cw ∧ i / 4 % cw < b.1 + min bs (cw - b.1) ∧
    b.2 ≤ i / 4 / cw ∧ i / 4 / cw < b.2 + min bs (ch - b.2)))

/-- The block-sum loop of `applyPixelation` for one channel: reads are at
`(blockX + px, blockY + py)` for `py < bh`, `px < bw`. -/
def sumChan (d : ℕ → ℕ) (cw x0 y0 bw bh c : ℕ) : ℕ :=
  ∑ py ∈ Finset.range bh, ∑ px ∈ Finset.range bw, d (chanIdx cw (x0 + px) (y0 + py) c)

/-- The value `Math.round(sum / count)` a block writes into channel `c`;
`count = bw * bh` is the number of pixels the sum loop visited. -/
def avgVal (d : ℕ → ℕ) (cw ch bs : ℕ) (b : ℕ × ℕ) (c : ℕ) : ℕ :=
  jsRoundNatDiv (sumChan d cw b.1 b.2 (min bs (cw - b.1)) (min bs (ch - b.2)) c)
    (min bs (cw - b.1) * min bs (ch - b.2))

/-- One iteration of the block loop body: sum the block's pixels, then the
fill loop overwrites exactly the block's byte indices with the per-channel
average; every other index keeps its value. -/
def processBlock (cw ch bs : ℕ) (d : ℕ → ℕ) (b : ℕ × ℕ) : ℕ → ℕ :=
  fun i => if inBlock cw ch bs b i then avgVal d cw ch bs b (i % 4) else d i

/-- The values visited by `for (v = 0; v < limit; v += bs)` when `bs ≥ 1`:
the multiples of `bs` below `limit`, in increasing order. -/
def blockStarts (bs limit : ℕ) : List ℕ :=
  (List.range ((limit + bs - 1) / bs)).map (fun k => k * bs)

/-- All block origins in loop order (`blockY` outer, `blockX` inner). -/
def blockList (cw ch bs : ℕ) : List (ℕ × ℕ) :=
  (blockStarts bs ch).flatMap fun y0 => (blockStarts bs cw).map fun x0 => (x0, y0)

/-- The whole of `applyPixelation`'s loop nest over a `cw × ch` pixel buffer
(the cropped `ImageData`), processing blocks sequentially against the buffer
being mutated.  Meaningful for `bs ≥ 1`; for `bs ≤ 0` the JavaScript loop
does not terminate (`pixelation_terminates_iff_positive_blockSize`), while
this total model visits no blocks. -/
def applyPixelationData (d : ℕ → ℕ) (cw ch bs : ℕ) : ℕ → ℕ :=
  (blockList cw ch bs).foldl (processBlock cw ch bs) d

/-- Function `applyPixelation` on the full canvas: clamp (`cx = Math.max(0, round x)`,
`cw = Math.min(round width, canvasWidth - cx)`, same for `y`), return
unchanged if the clipped extent is empty, else read the sub-buffer
(`getImageData(cx, cy, cw, ch)`), run the block loops on it, and write it
back (`putImageData(…, cx, cy)`). -/
def applyPixelationCanvas (W H : ℕ) (img : ℕ → ℕ) (x y w h : ℚ) (bs : ℕ) : ℕ → ℕ :=
  let cx : ℤ := max 0 (jsRound x)
  let cy : ℤ := max 0 (jsRound y)
  let cw : ℤ := min (jsRound w) (W - cx)
  let ch : ℤ := min (jsRound h) (H - cy)
  if cw ≤ 0 ∨ ch ≤ 0 then img
  else
    let cxN := cx.toNat
    let cyN := cy.toNat
    let cwN := cw.toNat
    let chN := ch.toNat
    let sub : ℕ → ℕ :=
      fun j => img (chanIdx W (cxN + j / 4 % cwN) (cyN + j / 4 / cwN) (j % 4))
    let sub2 := applyPixelationData sub cwN chN bs
    fun i =>
      if cxN ≤ i / 4 % W ∧ i / 4 % W < cxN + cwN ∧
          cyN ≤ i / 4 / W ∧ i / 4 / W < cyN + chN then
        sub2 (chanIdx cwN (i / 4 % W - cxN) (i / 4 / W - cyN) (i % 4))
      else img i

/-- The four channel values canvas `fillRect` writes for an opaque
`fillStyle`: R, G, B, then alpha 255. -/
def colorChan (col : Color) (c : ℕ) : ℕ :=
  if c = 0 then col.r else if c = 1 then col.g else if c = 2 then col.b else 255

/-- Function `applySolidMask`: `fillRect(round x, round y, round width, round height)`
paints every canvas pixel inside that rectangle with the opaque fill color
(clipped to the canvas; the store only produces `width, height ≥ 2`, so
flipped negative rectangles are not modelled). -/
def applySolidMaskCanvas (W H : ℕ) (img : ℕ → ℕ) (x y w h : ℚ) (col : Color) :
    ℕ → ℕ :=
  let rx := jsRound x
  let ry := jsRound y
  let rw := jsRound w
  let rh := jsRound h
  fun i =>
    if rx ≤ ((i / 4 % W : ℕ) : ℤ) ∧ ((i / 4 % W : ℕ) : ℤ) < rx + rw ∧
        ry ≤ ((i / 4 / W : ℕ) : ℤ) ∧ ((i / 4 / W : ℕ) : ℤ) < ry + rh ∧
        i / 4 / W < H then
      colorChan col (i % 4)
    else img i

/-- The per-region dispatch of `processImage`
(`region.mode === "pixelate" ? applyPixelation : applySolidMask`); geometry
fields are read as finite doubles (`toQ`), `blockSize` as the (non-negative)
loop step. -/
def applyRegionCanvas (W H : ℕ) (img : ℕ → ℕ) (r : BlurRegion) : ℕ → ℕ :=
  match r.mode with
  | .pixelate =>
    applyPixelationCanvas W H img r.x.toQ r.y.toQ r.width.toQ r.height.toQ
      r.blockSize.toNat
  | .solid =>
    applySolidMaskCanvas W H img r.x.toQ r.y.toQ r.width.toQ r.height.toQ
      r.fillColor

/-- Function `processImage`: draw the source, then apply every region's effect in
collection order over the same full-resolution buffer. -/
def processImagePixels (W H : ℕ) (base : ℕ → ℕ) (rs : List BlurRegion) : ℕ → ℕ :=
  rs.foldl (applyRegionCanvas W H) base

/-! ### Pixelation block lemmas -/

/-- The flat index arithmetic is invertible on in-row pixels. -/
theorem chanIdx_decode (cw px py c : ℕ) (hx : px < cw) (hc : c < 4) :
    chanIdx cw px py c % 4 = c ∧ chanIdx cw px py c / 4 % cw = px ∧
      chanIdx cw px py c / 4 / cw = py := by
  have hcw : 0 < cw := lt_of_le_of_lt (Nat.zero_le px) hx
  have h4 : chanIdx cw px py c / 4 = py * cw + px := by
    unfold chanIdx
    rw [Nat.mul_comm (py * cw + px) 4, Nat.mul_add_div (by norm_num),
      Nat.div_eq_of_lt hc, Nat.add_zero]
  refine ⟨?_, ?_, ?_⟩
  · unfold chanIdx
    rw [Nat.mul_comm (py * cw + px) 4, Nat.mul_add_mod]
    exact Nat.mod_eq_of_lt hc
  · rw [h4, Nat.mul_comm py cw, Nat.mul_add_mod]
    exact Nat.mod_eq_of_lt hx
  · rw [h4, Nat.mul_comm py cw, Nat.mul_add_div hcw, Nat.div_eq_of_lt hx,
      Nat.add_zero]

/-- The loop bound of `blockStarts`: `k`-th block exists iff its origin is
below the limit. -/
theorem lt_blockCount_iff (bs limit k : ℕ) (hbs : 1 ≤ bs) :
    k < (limit + bs - 1) / bs ↔ k * bs < limit := by
  rw [Nat.lt_iff_add_one_le, Nat.le_div_iff_mul_le (by omega : 0 < bs)]
  have hexp : (k + 1) * bs = k * bs + bs := by ring
  rw [hexp]
  omega

/-- Membership in the loop's visited values. -/
theorem mem_blockStarts (bs limit x : ℕ) (hbs : 1 ≤ bs) :
    x ∈ blockStarts bs limit ↔ ∃ k, x = k * bs ∧ x < limit := by
  unfold blockStarts
  simp only [List.mem_map, List.mem_range]
  constructor
  · rintro ⟨k, hk, rfl⟩
    exact ⟨k, rfl, (lt_blockCount_iff bs limit k hbs).mp hk⟩
  · rintro ⟨k, rfl, hlt⟩
    exact ⟨k, (lt_blockCount_iff bs limit k hbs).mpr hlt, rfl⟩

/-- The loop visits each origin once. -/
theorem blockStarts_nodup (bs limit : ℕ) (hbs : 1 ≤ bs) :
    (blockStarts bs limit).Nodup :=
  List.Nodup.map (fun a b h2 => Nat.eq_of_mul_eq_mul_right (by omega) h2)
    (List.nodup_range _)

/-- Decomposing membership in the block-origin list. -/
theorem mem_blockList (cw ch bs : ℕ) (hbs : 1 ≤ bs) (p : ℕ × ℕ) :
    p ∈ blockList cw ch bs ↔
      (∃ k, p.1 = k * bs ∧ p.1 < cw) ∧ (∃ l, p.2 = l * bs ∧ p.2 < ch) := by
  rcases p with ⟨x0, y0⟩
  unfold blockList
  rw [List.mem_flatMap]
  constructor
  · rintro ⟨w0, hw0, hmem⟩
    rw [List.mem_map] at hmem
    obtain ⟨v0, hv0, heq⟩ := hmem
    rw [Prod.mk.injEq] at heq
    obtain ⟨rfl, rfl⟩ := heq
    exact ⟨(mem_blockStarts bs cw v0 hbs).mp hv0, (mem_blockStarts bs ch w0 hbs).mp hw0⟩
  · rintro ⟨hx, hy⟩
    exact ⟨y0, (mem_blockStarts bs ch y0 hbs).mpr hy,
      List.mem_map.mpr ⟨x0, (mem_blockStarts bs cw x0 hbs).mpr hx, rfl⟩⟩

/-- Each block origin appears exactly once in the loop order. -/
theorem blockList_nodup (cw ch bs : ℕ) (hbs : 1 ≤ bs) :
    (blockList cw ch bs).Nodup := by
  unfold blockList
  rw [List.nodup_flatMap]
  refine ⟨fun y0 _ => List.Nodup.map ?_ (blockStarts_nodup bs cw hbs), ?_⟩
  · intro a b hab
    exact congrArg Prod.fst hab
  · refine List.Pairwise.imp ?_ ((blockStarts_nodup bs ch hbs) : _)
    intro a b hab
    intro l hl1 hl2
    rw [List.mem_map] at hl1 hl2
    obtain ⟨x1, _, rfl⟩ := hl1
    obtain ⟨x2, _, heq⟩ := hl2
    exact absurd (congrArg Prod.snd heq).symm hab

/-- Two blocks of the loop that contain the same byte index are the same
block: block origins are multiples of `bs` and each block is contained in
the `bs`-aligned stripe of its origin. -/
theorem inBlock_unique (cw ch bs : ℕ) (hbs : 1 ≤ bs) {p q : ℕ × ℕ} {i : ℕ}
    (hp : p ∈ blockList cw ch bs) (hq : q ∈ blockList cw ch bs)
    (hip : inBlock cw ch bs p i) (hiq : inBlock cw ch bs q i) : p = q := by
  obtain ⟨⟨k1, hk1, _⟩, ⟨l1, hl1, _⟩⟩ := (mem_blockList cw ch bs hbs p).mp hp
  obtain ⟨⟨k2, hk2, _⟩, ⟨l2, hl2, _⟩⟩ := (mem_blockList cw ch bs hbs q).mp hq
  obtain ⟨hp1, hp2, hp3, hp4⟩ := hip
  obtain ⟨hq1, hq2, hq3, hq4⟩ := hiq
  have hk : i / 4 % cw / bs = k1 := by
    refine Nat.div_eq_of_lt_le (hk1 ▸ hp1) ?_
    have : i / 4 % cw < p.1 + bs := lt_of_lt_of_le hp2 (by omega)
    calc i / 4 % cw < p.1 + bs := this
      _ = (k1 + 1) * bs := by rw [hk1]; ring
  have hk2e : i / 4 % cw / bs = k2 := by
    refine Nat.div_eq_of_lt_le (hk2 ▸ hq1) ?_
    have : i / 4 % cw < q.1 + bs := lt_of_lt_of_le hq2 (by omega)
    calc i / 4 % cw < q.1 + bs := this
      _ = (k2 + 1) * bs := by rw [hk2]; ring
  have hl : i / 4 / cw / bs = l1 := by
    refine Nat.div_eq_of_lt_le (hl1 ▸ hp3) ?_
    have : i / 4 / cw < p.2 + bs := lt_of_lt_of_le hp4 (by omega)
    calc i / 4 / cw < p.2 + bs := this
      _ = (l1 + 1) * bs := by rw [hl1]; ring
  have hl2e : i / 4 / cw / bs = l2 := by
    refine Nat.div_eq_of_lt_le (hl2 ▸ hq3) ?_
    have : i / 4 / cw < q.2 + bs := lt_of_lt_of_le hq4 (by omega)
    calc i / 4 / cw < q.2 + bs := this
      _ = (l2 + 1) * bs := by rw [hl2]; ring
  have e1 : p.1 = q.1 := by rw [hk1, hk2, ← hk, ← hk2e]
  have e2 : p.2 = q.2 := by rw [hl1, hl2, ← hl, ← hl2e]
  exact Prod.ext e1 e2

/-- The block the loop assigns to pixel `(px, py)` contains that pixel's
byte indices and is visited by the loop. -/
theorem ownBlock_spec (cw ch bs px py c : ℕ) (hbs : 1 ≤ bs) (hpx : px < cw)
    (hpy : py < ch) (hc : c < 4) :
    (px / bs * bs, py / bs * bs) ∈ blockList cw ch bs ∧
      inBlock cw ch bs (px / bs * bs, py / bs * bs) (chanIdx cw px py c) := by
  have hbs0 : 0 < bs := by omega
  have ex : px / bs * bs ≤ px := Nat.div_mul_le_self px bs
  have ey : py / bs * bs ≤ py := Nat.div_mul_le_self py bs
  have mx : bs * (px / bs) + px % bs = px := Nat.div_add_mod px bs
  have my : bs * (py / bs) + py % bs = py := Nat.div_add_mod py bs
  have rx : px % bs < bs := Nat.mod_lt px hbs0
  have ry : py % bs < bs := Nat.mod_lt py hbs0
  have cx : px / bs * bs = bs * (px / bs) := Nat.mul_comm _ _
  have cy : py / bs * bs = bs * (py / bs) := Nat.mul_comm _ _
  obtain ⟨hm, hd, hdd⟩ := chanIdx_decode cw px py c hpx hc
  constructor
  · rw [mem_blockList cw ch bs hbs]
    exact ⟨⟨px / bs, rfl, lt_of_le_of_lt ex hpx⟩, ⟨py / bs, rfl, lt_of_le_of_lt ey hpy⟩⟩
  · unfold inBlock
    rw [hd, hdd]
    refine ⟨ex, ?_, ey, ?_⟩
    · rcases Nat.le_total bs (cw - px / bs * bs) with hmin | hmin
      · rw [Nat.min_eq_left hmin]; omega
      · rw [Nat.min_eq_right hmin]; omega
    · rcases Nat.le_total bs (ch - py / bs * bs) with hmin | hmin
      · rw [Nat.min_eq_left hmin]; omega
      · rw [Nat.min_eq_right hmin]; omega

/-- Every read of the block-sum loop lies inside the block. -/
theorem inBlock_chanIdx_read (cw ch bs x0 y0 dx dy c : ℕ)
    (hx0 : x0 < cw) (hy0 : y0 < ch) (hdx : dx < min bs (cw - x0))
    (hdy : dy < min bs (ch - y0)) (hc : c < 4) :
    inBlock cw ch bs (x0, y0) (chanIdx cw (x0 + dx) (y0 + dy) c) := by
  have hxlt : x0 + dx < cw := by
    have := lt_of_lt_of_le hdx (Nat.min_le_right _ _)
    omega
  obtain ⟨hm, hd, hdd⟩ := chanIdx_decode cw (x0 + dx) (y0 + dy) c hxlt hc
  unfold inBlock
  rw [hd, hdd]
  exact ⟨Nat.le_add_right _ _, by omega, Nat.le_add_right _ _, by omega⟩

/-- The block sum only reads the block's own indices, so it is stable under
changes elsewhere. -/
theorem avgVal_congr (d d2 : ℕ → ℕ) (cw ch bs x0 y0 c : ℕ)
    (hx0 : x0 < cw) (hy0 : y0 < ch) (hc : c < 4)
    (hag : ∀ j, inBlock cw ch bs (x0, y0) j → d2 j = d j) :
    avgVal d2 cw ch bs (x0, y0) c = avgVal d cw ch bs (x0, y0) c := by
  unfold avgVal sumChan
  congr 1
  refine Finset.sum_congr rfl fun dy hdy => Finset.sum_congr rfl fun dx hdx => ?_
  rw [Finset.mem_range] at hdy hdx
  exact hag _ (inBlock_chanIdx_read cw ch bs x0 y0 dx dy c hx0 hy0 hdx hdy hc)

/-- Blocks that never contain `i` leave `i` untouched. -/
theorem foldl_processBlock_untouched (cw ch bs : ℕ) (L : List (ℕ × ℕ)) :
    ∀ (d : ℕ → ℕ) (i : ℕ), (∀ b ∈ L, ¬ inBlock cw ch bs b i) →
      L.foldl (processBlock cw ch bs) d i = d i := by
  induction L with
  | nil => intro d i _; rfl
  | cons b0 rest ih =>
    intro d i h
    rw [List.foldl_cons, ih _ i fun b hb => h b (List.mem_cons_of_mem _ hb)]
    simp [processBlock, h b0 (List.mem_cons_self _ _)]

/-- Sequentially processing a duplicate-free list of mutually disjoint
blocks writes, at any index of a listed block, the average of that block
computed from the data as it was before the whole loop: earlier blocks never
overlap it, so its sum still reads pre-loop values. -/
theorem foldl_processBlock_avg (cw ch bs : ℕ) (L : List (ℕ × ℕ)) :
    ∀ (d : ℕ → ℕ) (b : ℕ × ℕ) (i : ℕ), L.Nodup → b ∈ L →
      inBlock cw ch bs b i →
      (∀ p ∈ L, ∀ j, inBlock cw ch bs p j → inBlock cw ch bs b j → p = b) →
      b.1 < cw → b.2 < ch →
      L.foldl (processBlock cw ch bs) d i = avgVal d cw ch bs b (i % 4) := by
  induction L with
  | nil =>
    intro d b i _ hb
    exact absurd hb (List.not_mem_nil _)
  | cons b0 rest ih =>
    intro d b i hnd hb hib huniq hbx hby
    rw [List.foldl_cons]
    rw [List.nodup_cons] at hnd
    rcases List.mem_cons.mp hb with rfl | hbrest
    · have hnone : ∀ q ∈ rest, ¬ inBlock cw ch bs q i := by
        intro q hq hiq
        have heq : q = b := huniq q (List.mem_cons_of_mem _ hq) i hiq hib
        rw [heq] at hq
        exact hnd.1 hq
      rw [foldl_processBlock_untouched cw ch bs rest _ i hnone]
      simp only [processBlock, if_pos hib]
    · have hag : ∀ j, inBlock cw ch bs b j →
          processBlock cw ch bs d b0 j = d j := by
        intro j hj
        by_cases hj0 : inBlock cw ch bs b0 j
        · have heq : b0 = b := huniq b0 (List.mem_cons_self _ _) j hj0 hj
          rw [heq] at hnd
          exact absurd hbrest hnd.1
        · simp [processBlock, hj0]
      have hrec := ih (processBlock cw ch bs d b0) b i hnd.2 hbrest hib
        (fun p hp j h1 h2 => huniq p (List.mem_cons_of_mem _ hp) j h1 h2) hbx hby
      rw [hrec]
      rcases b with ⟨x0, y0⟩
      exact avgVal_congr d (processBlock cw ch bs d b0) cw ch bs x0 y0 (i % 4)
        hbx hby (Nat.mod_lt i (by norm_num)) hag

/-- The full loop nest of `applyPixelation` rewrites channel `c` of every
in-extent pixel `(px, py)` with the half-up-rounded mean of channel `c` of
its (clipped, `bs`-aligned) block, computed over the pre-loop data. -/
theorem applyPixelationData_spec (d : ℕ → ℕ) (cw ch bs px py c : ℕ)
    (hbs : 1 ≤ bs) (hpx : px < cw) (hpy : py < ch) (hc : c < 4) :
    applyPixelationData d cw ch bs (chanIdx cw px py c) =
      avgVal d cw ch bs (px / bs * bs, py / bs * bs) c := by
  obtain ⟨hmem, hin⟩ := ownBlock_spec cw ch bs px py c hbs hpx hpy hc
  unfold applyPixelationData
  have hx : px / bs * bs < cw := lt_of_le_of_lt (Nat.div_mul_le_self px bs) hpx
  have hy : py / bs * bs < ch := lt_of_le_of_lt (Nat.div_mul_le_self py bs) hpy
  rw [foldl_processBlock_avg cw ch bs (blockList cw ch bs) d _ _
    (blockList_nodup cw ch bs hbs) hmem hin
    (fun p hp j h1 h2 => inBlock_unique cw ch bs hbs hp hmem h1 h2) hx hy]
  congr 1
  exact (chanIdx_decode cw px py c hpx hc).1

/-- Rounding `Math.round` is the identity on integral doubles. -/
theorem jsRound_natCast (n : ℕ) : jsRound (n : ℚ) = (n : ℤ) := by
  unfold jsRound
  refine Int.floor_eq_iff.mpr ⟨?_, ?_⟩
  · push_cast
    linarith
  · push_cast
    linarith

/-- The pixel the loop assigns to coordinate `n` lies inside its clipped
`bs`-aligned block. -/
theorem div_mul_block_bounds (limit bs n : ℕ) (hbs : 1 ≤ bs) (hn : n < limit) :
    n / bs * bs ≤ n ∧ n < n / bs * bs + min bs (limit - n / bs * bs) := by
  have ex : n / bs * bs ≤ n := Nat.div_mul_le_self n bs
  have mx : bs * (n / bs) + n % bs = n := Nat.div_add_mod n bs
  have rx : n % bs < bs := Nat.mod_lt n (by omega)
  have cx : n / bs * bs = bs * (n / bs) := Nat.mul_comm _ _
  refine ⟨ex, ?_⟩
  rcases Nat.le_total bs (limit - n / bs * bs) with hmin | hmin
  · rw [Nat.min_eq_left hmin]
    omega
  · rw [Nat.min_eq_right hmin]
    omega

/-- Reduction of `applyPixelationCanvas` once the clamped crop rectangle is
known (and non-empty): inside the crop the pixelated sub-buffer shows
through, outside it the canvas is untouched. -/
theorem applyPixelationCanvas_eq (W H : ℕ) (img : ℕ → ℕ) (x y w h : ℚ)
    (bs cx cy cw ch : ℕ)
    (hcx : max 0 (jsRound x) = (cx : ℤ)) (hcy : max 0 (jsRound y) = (cy : ℤ))
    (hcw : min (jsRound w) ((W : ℤ) - (cx : ℤ)) = (cw : ℤ))
    (hch : min (jsRound h) ((H : ℤ) - (cy : ℤ)) = (ch : ℤ))
    (hcw0 : 0 < cw) (hch0 : 0 < ch) :
    applyPixelationCanvas W H img x y w h bs = fun i =>
      if cx ≤ i / 4 % W ∧ i / 4 % W < cx + cw ∧
          cy ≤ i / 4 / W ∧ i / 4 / W < cy + ch then
        applyPixelationData
          (fun j => img (chanIdx W (cx + j / 4 % cw) (cy + j / 4 / cw) (j % 4)))
          cw ch bs (chanIdx cw (i / 4 % W - cx) (i / 4 / W - cy) (i % 4))
      else img i := by
  simp only [applyPixelationCanvas, hcx, hcy, hcw, hch]
  rw [if_neg]
  · simp only [Int.toNat_natCast]
  · omega

/-- Claim C5: for every pixel buffer, extent `cw × ch`, and `blockSize ≥ 1`,
the pixelate effect partitions the extent into non-overlapping
`blockSize × blockSize` blocks (edge blocks clipped at the boundary) and
overwrites every channel of every pixel of each block with the half-up
rounding of that channel's arithmetic mean over the block's original
pixels — the pixel `(px, py)` belongs to the block anchored at
`(px / bs * bs, py / bs * bs)`, whose clipped extent contains it. -/
theorem pixelate_overwrites_blocks_with_rounded_mean (d : ℕ → ℕ)
    (cw ch bs px py c : ℕ) (hbs : 1 ≤ bs) (hpx : px < cw) (hpy : py < ch)
    (hc : c < 4) :
    applyPixelationData d cw ch bs (chanIdx cw px py c) =
        jsRoundNatDiv
          (sumChan d cw (px / bs * bs) (py / bs * bs)
            (min bs (cw - px / bs * bs)) (min bs (ch - py / bs * bs)) c)
          (min bs (cw - px / bs * bs) * min bs (ch - py / bs * bs)) ∧
      px / bs * bs ≤ px ∧ px < px / bs * bs + min bs (cw - px / bs * bs) ∧
      py / bs * bs ≤ py ∧ py < py / bs * bs + min bs (ch - py / bs * bs) := by
  obtain ⟨hx1, hx2⟩ := div_mul_block_bounds cw bs px hbs hpx
  obtain ⟨hy1, hy2⟩ := div_mul_block_bounds ch bs py hbs hpy
  refine ⟨?_, hx1, hx2, hy1, hy2⟩
  rw [applyPixelationData_spec d cw ch bs px py c hbs hpx hpy hc]
  rfl

/-- Witness for C5 on a concrete 5×3 buffer with block size 2 at pixel
`(4, 2)`, channel 1. -/
theorem pixelate_overwrites_blocks_with_rounded_mean_check :
    (1 ≤ 2 ∧ 4 < 5 ∧ 2 < 3 ∧ 1 < 4) ∧
      (applyPixelationData (fun i => i % 9) 5 3 2 (chanIdx 5 4 2 1) =
          jsRoundNatDiv
            (sumChan (fun i => i % 9) 5 (4 / 2 * 2) (2 / 2 * 2)
              (min 2 (5 - 4 / 2 * 2)) (min 2 (3 - 2 / 2 * 2)) 1)
            (min 2 (5 - 4 / 2 * 2) * min 2 (3 - 2 / 2 * 2)) ∧
        4 / 2 * 2 ≤ 4 ∧ 4 < 4 / 2 * 2 + min 2 (5 - 4 / 2 * 2) ∧
        2 / 2 * 2 ≤ 2 ∧ 2 < 2 / 2 * 2 + min 2 (3 - 2 / 2 * 2)) :=
  ⟨by norm_num,
    pixelate_overwrites_blocks_with_rounded_mean (fun i => i % 9) 5 3 2 4 2 1
      (by norm_num) (by norm_num) (by norm_num) (by norm_num)⟩

/-- Claim C6: export applies region effects in collection (insertion) order,
so overlap resolves last-region-wins: with a Pixelate region A containing a
later SolidFill region B, every exported pixel inside B's rectangle holds
B's fill color, and pixels of A outside B hold the values the pixelate pass
wrote over the base image. -/
theorem export_applies_in_order_last_wins (W H : ℕ) (base : ℕ → ℕ)
    (ax ay aw ah bx2 by2 bw2 bh2 bsA idA idB : ℕ) (bsB : ℤ) (colA colB : Color)
    (hWa : ax + aw ≤ W) (hHa : ay + ah ≤ H)
    (_hbxl : ax ≤ bx2) (_hbyl : ay ≤ by2)
    (hbxr : bx2 + bw2 ≤ ax + aw) (hbyr : by2 + bh2 ≤ ay + ah) :
    (∀ px py c, bx2 ≤ px → px < bx2 + bw2 → by2 ≤ py → py < by2 + bh2 → c < 4 →
        processImagePixels W H base
            [⟨idA, .fin ((ax : ℕ) : ℚ), .fin ((ay : ℕ) : ℚ), .fin ((aw : ℕ) : ℚ),
                .fin ((ah : ℕ) : ℚ), .pixelate, (bsA : ℤ), colA⟩,
              ⟨idB, .fin ((bx2 : ℕ) : ℚ), .fin ((by2 : ℕ) : ℚ), .fin ((bw2 : ℕ) : ℚ),
                .fin ((bh2 : ℕ) : ℚ), .solid, bsB, colB⟩]
            (chanIdx W px py c) = colorChan colB c) ∧
      (∀ px py c, ax ≤ px → px < ax + aw → ay ≤ py → py < ay + ah → c < 4 →
        ¬(bx2 ≤ px ∧ px < bx2 + bw2 ∧ by2 ≤ py ∧ py < by2 + bh2) →
        processImagePixels W H base
            [⟨idA, .fin ((ax : ℕ) : ℚ), .fin ((ay : ℕ) : ℚ), .fin ((aw : ℕ) : ℚ),
                .fin ((ah : ℕ) : ℚ), .pixelate, (bsA : ℤ), colA⟩,
              ⟨idB, .fin ((bx2 : ℕ) : ℚ), .fin ((by2 : ℕ) : ℚ), .fin ((bw2 : ℕ) : ℚ),
                .fin ((bh2 : ℕ) : ℚ), .solid, bsB, colB⟩]
            (chanIdx W px py c) =
          applyPixelationCanvas W H base ((ax : ℕ) : ℚ) ((ay : ℕ) : ℚ)
            ((aw : ℕ) : ℚ) ((ah : ℕ) : ℚ) bsA (chanIdx W px py c)) := by
  have hfold : processImagePixels W H base
      [⟨idA, .fin ((ax : ℕ) : ℚ), .fin ((ay : ℕ) : ℚ), .fin ((aw : ℕ) : ℚ),
          .fin ((ah : ℕ) : ℚ), .pixelate, (bsA : ℤ), colA⟩,
        ⟨idB, .fin ((bx2 : ℕ) : ℚ), .fin ((by2 : ℕ) : ℚ), .fin ((bw2 : ℕ) : ℚ),
          .fin ((bh2 : ℕ) : ℚ), .solid, bsB, colB⟩] =
      applySolidMaskCanvas W H
        (applyPixelationCanvas W H base ((ax : ℕ) : ℚ) ((ay : ℕ) : ℚ)
          ((aw : ℕ) : ℚ) ((ah : ℕ) : ℚ) bsA)
        ((bx2 : ℕ) : ℚ) ((by2 : ℕ) : ℚ) ((bw2 : ℕ) : ℚ) ((bh2 : ℕ) : ℚ) colB := rfl
  constructor
  · intro px py c hpx1 hpx2 hpy1 hpy2 hc
    have hpxW : px < W := by omega
    obtain ⟨hm, hdm, hdd⟩ := chanIdx_decode W px py c hpxW hc
    rw [hfold]
    simp only [applySolidMaskCanvas, jsRound_natCast]
    rw [hdm, hdd, hm]
    split
    · rfl
    · rename_i hcondf
      exfalso
      apply hcondf
      refine ⟨by exact_mod_cast hpx1, by exact_mod_cast hpx2,
        by exact_mod_cast hpy1, by exact_mod_cast hpy2, by omega⟩
  · intro px py c hpx1 hpx2 hpy1 hpy2 hc hrect
    have hpxW : px < W := by omega
    obtain ⟨hm, hdm, hdd⟩ := chanIdx_decode W px py c hpxW hc
    rw [hfold]
    simp only [applySolidMaskCanvas, jsRound_natCast]
    rw [hdm, hdd, hm]
    split
    · rename_i hcondt
      exfalso
      apply hrect
      refine ⟨by exact_mod_cast hcondt.1, by exact_mod_cast hcondt.2.1,
        by exact_mod_cast hcondt.2.2.1, by exact_mod_cast hcondt.2.2.2.1⟩
    · rfl

/-- Witness for C6 on an 8×8 canvas: A = (0,0,8,8) pixelated with block 2,
B = (2,2,4,4) solid-filled. -/
theorem export_applies_in_order_last_wins_check :
    ((0 : ℕ) + 8 ≤ 8 ∧ (0 : ℕ) + 8 ≤ 8 ∧ (0 : ℕ) ≤ 2 ∧ (0 : ℕ) ≤ 2 ∧
        (2 : ℕ) + 4 ≤ 0 + 8 ∧ (2 : ℕ) + 4 ≤ 0 + 8) ∧
      ((∀ px py c, 2 ≤ px → px < 2 + 4 → 2 ≤ py → py < 2 + 4 → c < 4 →
          processImagePixels 8 8 (fun i => i % 11)
              [⟨0, .fin ((0 : ℕ) : ℚ), .fin ((0 : ℕ) : ℚ), .fin ((8 : ℕ) : ℚ),
                  .fin ((8 : ℕ) : ℚ), .pixelate, ((2 : ℕ) : ℤ), ⟨1, 2, 3⟩⟩,
                ⟨1, .fin ((2 : ℕ) : ℚ), .fin ((2 : ℕ) : ℚ), .fin ((4 : ℕ) : ℚ),
                  .fin ((4 : ℕ) : ℚ), .solid, 2, ⟨9, 9, 9⟩⟩]
              (chanIdx 8 px py c) = colorChan ⟨9, 9, 9⟩ c) ∧
        (∀ px py c, 0 ≤ px → px < 0 + 8 → 0 ≤ py → py < 0 + 8 → c < 4 →
          ¬(2 ≤ px ∧ px < 2 + 4 ∧ 2 ≤ py ∧ py < 2 + 4) →
          processImagePixels 8 8 (fun i => i % 11)
              [⟨0, .fin ((0 : ℕ) : ℚ), .fin ((0 : ℕ) : ℚ), .fin ((8 : ℕ) : ℚ),
                  .fin ((8 : ℕ) : ℚ), .pixelate, ((2 : ℕ) : ℤ), ⟨1, 2, 3⟩⟩,
                ⟨1, .fin ((2 : ℕ) : ℚ), .fin ((2 : ℕ) : ℚ), .fin ((4 : ℕ) : ℚ),
                  .fin ((4 : ℕ) : ℚ), .solid, 2, ⟨9, 9, 9⟩⟩]
              (chanIdx 8 px py c) =
            applyPixelationCanvas 8 8 (fun i => i % 11) ((0 : ℕ) : ℚ)
              ((0 : ℕ) : ℚ) ((8 : ℕ) : ℚ) ((8 : ℕ) : ℚ) 2 (chanIdx 8 px py c))) :=
  ⟨by norm_num,
    export_applies_in_order_last_wins 8 8 (fun i => i % 11) 0 0 8 8 2 2 4 4 2 0 1 2
      ⟨1, 2, 3⟩ ⟨9, 9, 9⟩ (by norm_num) (by norm_num) (by norm_num) (by norm_num)
      (by norm_num) (by norm_num)⟩

/-- Counterexample to C1 as stated: after `addRegion(10, 10, -20, -20,
Pixelate, 10, _)` on a 100×100 image, export modifies pixel `(15, 15)` —
outside the geometric intersection `[0,0,10,10]` — because the clamp moves
the crop origin to `(0, 0)` without shrinking the rounded width/height, so
the overwritten extent is `[0,0,20,20]`.  Concretely: a base image that is
255 at byte index `6060 = chanIdx 100 15 15 0` and 0 elsewhere exports with
value 3 (the rounded mean of its block) at that index. -/
theorem export_clip_counterexample :
    chanIdx 100 15 15 0 = 6060 ∧ ¬(15 < 10) ∧
      (fun i => if i = 6060 then 255 else 0 : ℕ → ℕ) 6060 = 255 ∧
      processImagePixels 100 100 (fun i => if i = 6060 then 255 else 0)
          (addRegionStep emptyRegionState (.fin 10) (.fin 10) (.fin (-20))
            (.fin (-20)) .pixelate 10 ⟨0, 0, 0⟩).regions 6060 = 3 := by
  have hreg : (addRegionStep emptyRegionState (.fin 10) (.fin 10) (.fin (-20))
      (.fin (-20)) .pixelate 10 ⟨0, 0, 0⟩).regions =
      [⟨0, .fin (-10), .fin (-10), .fin 20, .fin 20, .pixelate, 10, ⟨0, 0, 0⟩⟩] := by
    norm_num [addRegionStep, JsNum.lt, JsNum.abs, JsNum.add, emptyRegionState]
  refine ⟨by norm_num [chanIdx], by norm_num, rfl, ?_⟩
  rw [hreg]
  have hfold : processImagePixels 100 100 (fun i => if i = 6060 then 255 else 0)
      [⟨0, .fin (-10), .fin (-10), .fin 20, .fin 20, .pixelate, 10, ⟨0, 0, 0⟩⟩] =
      applyPixelationCanvas 100 100 (fun i => if i = 6060 then 255 else 0)
        (-10) (-10) 20 20 10 := rfl
  rw [hfold, applyPixelationCanvas_eq 100 100 _ (-10) (-10) 20 20 10 0 0 20 20
    (by norm_num [jsRound]) (by norm_num [jsRound]) (by norm_num [jsRound])
    (by norm_num [jsRound]) (by norm_num) (by norm_num)]
  decide

/-- Amended C1: `addRegion(10, 10, -20, -20, Pixelate, 10, _)` commits the
normalized region `{x: -10, y: -10, w: 20, h: 20}`; during export the clamp
moves the crop origin to `(0, 0)` but keeps the rounded 20×20 size (capping
it only against the right/bottom canvas edge), so on a 100×100 source the
overwritten extent is exactly `[0,0,20,20]`: every pixel outside it keeps
its value and every pixel inside it is rewritten with its block's rounded
channel means. -/
theorem addRegion_negative_drag_export_extent (col : Color) (img : ℕ → ℕ)
    (px py c : ℕ) :
    ((addRegionStep emptyRegionState (.fin 10) (.fin 10) (.fin (-20))
        (.fin (-20)) .pixelate 10 col).regions =
      [⟨0, .fin (-10), .fin (-10), .fin 20, .fin 20, .pixelate, 10, col⟩]) ∧
      (px < 100 → py < 100 → c < 4 → 20 ≤ px ∨ 20 ≤ py →
        processImagePixels 100 100 img
            (addRegionStep emptyRegionState (.fin 10) (.fin 10) (.fin (-20))
              (.fin (-20)) .pixelate 10 col).regions (chanIdx 100 px py c) =
          img (chanIdx 100 px py c)) ∧
      (px < 20 → py < 20 → c < 4 →
        processImagePixels 100 100 img
            (addRegionStep emptyRegionState (.fin 10) (.fin 10) (.fin (-20))
              (.fin (-20)) .pixelate 10 col).regions (chanIdx 100 px py c) =
          avgVal (fun j => img (chanIdx 100 (j / 4 % 20) (j / 4 / 20) (j % 4)))
            20 20 10 (px / 10 * 10, py / 10 * 10) c) := by
  have hreg : (addRegionStep emptyRegionState (.fin 10) (.fin 10) (.fin (-20))
      (.fin (-20)) .pixelate 10 col).regions =
      [⟨0, .fin (-10), .fin (-10), .fin 20, .fin 20, .pixelate, 10, col⟩] := by
    norm_num [addRegionStep, JsNum.lt, JsNum.abs, JsNum.add, emptyRegionState]
  have hfold : processImagePixels 100 100 img
      [⟨0, .fin (-10), .fin (-10), .fin 20, .fin 20, .pixelate, 10, col⟩] =
      applyPixelationCanvas 100 100 img (-10) (-10) 20 20 10 := rfl
  have hcanvas := applyPixelationCanvas_eq 100 100 img (-10) (-10) 20 20 10
    0 0 20 20 (by norm_num [jsRound]) (by norm_num [jsRound])
    (by norm_num [jsRound]) (by norm_num [jsRound]) (by norm_num) (by norm_num)
  refine ⟨hreg, ?_, ?_⟩
  · intro hpx hpy hc hout
    obtain ⟨hm, hdm, hdd⟩ := chanIdx_decode 100 px py c hpx hc
    rw [hreg, hfold, hcanvas]
    simp only []
    rw [hdm, hdd, if_neg (by omega)]
  · intro hpx hpy hc
    have hpx100 : px < 100 := by omega
    obtain ⟨hm, hdm, hdd⟩ := chanIdx_decode 100 px py c hpx100 hc
    rw [hreg, hfold, hcanvas]
    simp only []
    rw [hdm, hdd, hm, if_pos (by omega)]
    simp only [Nat.sub_zero, Nat.zero_add]
    exact applyPixelationData_spec _ 20 20 10 px py c (by norm_num) hpx hpy hc

/-- Witness for the amended C1: pixel `(25, 30)` (outside the crop) is
untouched, pixel `(15, 15)` (inside it) holds its block's rounded mean. -/
theorem addRegion_negative_drag_export_extent_check :
    (processImagePixels 100 100 (fun i => i % 7)
        (addRegionStep emptyRegionState (.fin 10) (.fin 10) (.fin (-20))
          (.fin (-20)) .pixelate 10 ⟨0, 0, 0⟩).regions (chanIdx 100 25 30 1) =
      (fun i => i % 7 : ℕ → ℕ) (chanIdx 100 25 30 1)) ∧
      (processImagePixels 100 100 (fun i => i % 7)
          (addRegionStep emptyRegionState (.fin 10) (.fin 10) (.fin (-20))
            (.fin (-20)) .pixelate 10 ⟨0, 0, 0⟩).regions (chanIdx 100 15 15 0) =
        avgVal (fun j => (fun i => i % 7 : ℕ → ℕ)
            (chanIdx 100 (j / 4 % 20) (j / 4 / 20) (j % 4)))
          20 20 10 (15 / 10 * 10, 15 / 10 * 10) 0) :=
  ⟨(addRegion_negative_drag_export_extent ⟨0, 0, 0⟩ (fun i => i % 7) 25 30 1).2.1
      (by norm_num) (by norm_num) (by norm_num) (Or.inl (by norm_num)),
    (addRegion_negative_drag_export_extent ⟨0, 0, 0⟩ (fun i => i % 7) 15 15 0).2.2
      (by norm_num) (by norm_num) (by norm_num)⟩
